import Mathlib

/-!
Verification of the qcm quantum-circuit manager's layout pass
(`qc/circuit`: `FromDAG`, `Operations`, `Depth`, `MaxStep`) and simulator
construction (`qc/simulator`: `NewSimulator`, `GetStatevector`).

Go machine integers are modelled as `Int`; Go maps keyed by node id are
modelled as association lists with most-recent-binding-first lookup;
`sort.SliceStable` is modelled as a stable insertion sort with the
corresponding non-strict comparator.
-/

namespace QCM

/-- Node identifiers in the circuit DAG (`dag.NodeID`). -/
abbrev NodeID := Nat

/-- A gate kind (`gate.Gate`); only its identity matters to the layout pass. -/
structure Gate where
  name : String
deriving DecidableEq

/-- A node of the circuit DAG as read through `dag.DAGReader`:
id, parent ids, absolute qubit indices, classical bit index and gate. -/
structure DAGNode where
  id : NodeID
  parents : List NodeID
  Qubits : List Int
  Cbit : Int
  G : Gate
deriving DecidableEq

/-- The part of `dag.DAGReader` consumed by `FromDAG`: qubit count,
classical-bit count, and the topologically sorted node list `Operations()`. -/
structure DAGReader where
  qubits : Int
  clbits : Int
  operations : List DAGNode
deriving DecidableEq

/-- Go struct `circuit.Operation`: a laid-out operation. -/
structure Operation where
  G : Gate
  Qubits : List Int
  Cbit : Int
  TimeStep : Int
  Line : Int
deriving DecidableEq

/-- The concrete `circuit.circuit` struct backing the `Circuit` interface. -/
structure Circuit where
  qubits : Int
  clbits : Int
  ops : List Operation
  depth : Int
  maxStep : Int
deriving DecidableEq

/-- Lookup in the `nodeTimeStep` map; Go map writes are modelled by
prepending, so lookup takes the most recent binding. -/
def lookupStep : List (NodeID × Int) → NodeID → Option Int
  | [], _ => none
  | (k, v) :: rest, key => if k = key then some v else lookupStep rest key

/-- The `currentMaxParentStep` accumulation inside `FromDAG`:
start from -1, take each parent's recorded step when present and larger. -/
def maxParentStep (m : List (NodeID × Int)) (parents : List NodeID) : Int :=
  parents.foldl
    (fun acc pID =>
      match lookupStep m pID with
      | some pStep => if pStep > acc then pStep else acc
      | none => acc)
    (-1)

/-- The `minQubit` computation inside `FromDAG`: minimum qubit index,
-1 for an empty operand list. -/
def minQubit : List Int → Int
  | [] => -1
  | q :: rest => rest.foldl (fun acc x => if x < acc then x else acc) q

/-- The main loop of `FromDAG` over the topologically sorted nodes,
threading the `nodeTimeStep` map and the running `maxStep`.
Returns the unsorted operation list, the final map and the final max. -/
def layoutLoop : List DAGNode → List (NodeID × Int) → Int →
    List Operation × List (NodeID × Int) × Int
  | [], m, ms => ([], m, ms)
  | n :: rest, m, ms =>
    let step := maxParentStep m n.parents + 1
    let op : Operation :=
      { G := n.G, Qubits := n.Qubits, Cbit := n.Cbit, TimeStep := step,
        Line := minQubit n.Qubits }
    let tail := layoutLoop rest ((n.id, step) :: m) (if step > ms then step else ms)
    (op :: tail.1, tail.2)

/-- The ordering realized by `sort.SliceStable` with the comparator
`TimeStep` then `Line`: the sorted output is non-decreasing in this
relation. -/
def opSortLE (a b : Operation) : Prop :=
  a.TimeStep < b.TimeStep ∨ (a.TimeStep = b.TimeStep ∧ a.Line ≤ b.Line)

instance : DecidableRel opSortLE := fun a b => by
  unfold opSortLE; infer_instance

instance : IsTotal Operation opSortLE :=
  ⟨fun a b => by unfold opSortLE; omega⟩

instance : IsTrans Operation opSortLE :=
  ⟨fun a b c => by unfold opSortLE; omega⟩

/-- The `sort.SliceStable` call in `FromDAG`, as a stable sort under
`opSortLE`. -/
def sortOps (ops : List Operation) : List Operation :=
  List.insertionSort opSortLE ops

/-- Go function `circuit.FromDAG`: build the immutable circuit with layout from a
DAG reader, assigning time steps, sorting, and deriving depth/maxStep. -/
def FromDAG (dr : DAGReader) : Circuit :=
  if dr.operations.isEmpty then
    { qubits := dr.qubits, clbits := dr.clbits, ops := [], depth := 0,
      maxStep := -1 }
  else
    match layoutLoop dr.operations [] (-1) with
    | (ops0, _, maxStep) =>
      { qubits := dr.qubits, clbits := dr.clbits, ops := sortOps ops0,
        depth := maxStep + 1, maxStep := maxStep }

/-- Accessor `(c *circuit).Qubits()`. -/
def Circuit.Qubits (c : Circuit) : Int := c.qubits

/-- Accessor `(c *circuit).Clbits()`. -/
def Circuit.Clbits (c : Circuit) : Int := c.clbits

/-- Accessor `(c *circuit).Depth()`. -/
def Circuit.Depth (c : Circuit) : Int := c.depth

/-- Accessor `(c *circuit).MaxStep()`. -/
def Circuit.MaxStep (c : Circuit) : Int := c.maxStep

/-- Accessor `(c *circuit).Operations()`: returns a copy of the cached slice; as a
value it equals the cached slice itself. -/
def Circuit.Operations (c : Circuit) : List Operation := c.ops

/-- The final `nodeTimeStep` map produced by the `FromDAG` loop. -/
def stepMap (nodes : List DAGNode) : List (NodeID × Int) :=
  (layoutLoop nodes [] (-1)).2.1

/-- The operation emitted by the `FromDAG` loop for node `n` at step `s`. -/
def mkOp (n : DAGNode) (s : Int) : Operation :=
  { G := n.G, Qubits := n.Qubits, Cbit := n.Cbit, TimeStep := s,
    Line := minQubit n.Qubits }

/-- Maximum of a list of integers with base -1. -/
def listMaxI (l : List Int) : Int := l.foldl max (-1)

/-- The node list is in topological order relative to the already-known
ids: every parent of a node is either an earlier node's id or already
known. -/
def topoRel : List NodeID → List DAGNode → Prop
  | _, [] => True
  | ids, n :: rest => (∀ p ∈ n.parents, p ∈ ids) ∧ topoRel (n.id :: ids) rest

instance instTopoRelDec : (ids : List NodeID) → (nodes : List DAGNode) →
    Decidable (topoRel ids nodes)
  | _, [] => isTrue trivial
  | ids, n :: rest =>
    haveI : Decidable (topoRel (n.id :: ids) rest) := instTopoRelDec _ _
    inferInstanceAs (Decidable (_ ∧ _))

/-- Concrete gate for the C1 witness. -/
def gateH : Gate := { name := "H" }

/-- Concrete gate for the C1 witness. -/
def gateCX : Gate := { name := "CNOT" }

/-- Root node of the witness DAG. -/
def nodeA : DAGNode :=
  { id := 0, parents := [], Qubits := [0], Cbit := -1, G := gateH }

/-- Child node of the witness DAG, depending on `nodeA`. -/
def nodeB : DAGNode :=
  { id := 1, parents := [0], Qubits := [0, 1], Cbit := -1, G := gateCX }

/-- The witness DAG reader: H on qubit 0 then CNOT(0,1). -/
def drW : DAGReader := { qubits := 2, clbits := 1, operations := [nodeA, nodeB] }
end QCM

namespace QCM.Sim

/-- Stand-in for Go `complex128`; the simulator claims do not depend on
amplitude arithmetic. -/
abbrev Complex128 := Rat × Rat

/-- Go interface `simulator.OneShotRunner`, together with the optional
`StatevectorGetter` capability: the Go type assertion
`runner.(StatevectorGetter)` succeeds exactly when the dynamic value
implements the interface, modelled by the `Option` being `some`. -/
structure OneShotRunner where
  RunOnce : Circuit → Except String String
  statevectorGetter : Option (Circuit → Except String (List Complex128))

/-- Go struct `simulator.SimulatorOptions`; `Runner` is an interface value and may
be nil (`none`). -/
structure SimulatorOptions where
  Shots : Int
  Workers : Int
  Runner : Option OneShotRunner
  StateVector : Bool

/-- Go struct `simulator.Simulator` (the logger field is irrelevant to the claims). -/
structure Simulator where
  Shots : Int
  Workers : Int
  runner : Option OneShotRunner

/-- Go function `simulator.NewSimulator`; `numCPU` stands for `runtime.NumCPU()`. -/
def NewSimulator (numCPU : Int) (options : SimulatorOptions) : Simulator :=
  let shots := if options.Shots ≤ 0 then 1024 else options.Shots
  let workers0 := if options.Workers ≤ 0 then numCPU else options.Workers
  let workers := if workers0 > shots then shots else workers0
  { Shots := shots, Workers := workers, runner := options.Runner }

/-- Method `(s *Simulator).GetStatevector`: dispatch on the `StatevectorGetter`
type assertion; a nil runner fails the assertion. -/
def Simulator.GetStatevector (s : Simulator) (c : Circuit) :
    Except String (List Complex128) :=
  match s.runner with
  | some r =>
    match r.statevectorGetter with
    | some getter => getter c
    | none => Except.error "runner does not support getting the state vector"
  | none => Except.error "runner does not support getting the state vector"

/-- Whether the simulator's runner implements the statevector-getter
capability (the Go type assertion succeeds). -/
def Simulator.implementsStatevector (s : Simulator) : Bool :=
  match s.runner with
  | some r => r.statevectorGetter.isSome
  | none => false

/-- Result of one simulator execution: a shot histogram or a statevector. -/
inductive RunResult where
  | histogram : List (String × Int) → RunResult
  | statevector : List Complex128 → RunResult

/-- Modelled from the spec: "`state_vector`: if true, `Run` is not called;
`GetStatevector` is used instead."  The code consuming the `StateVector`
option (and `Run`'s shot scheduler `RunParallelStatic`) is not under
`src/`; the shot path is passed in abstractly as `runShots`. -/
def dispatch (runShots : Simulator → Circuit → Except String (List (String × Int)))
    (s : Simulator) (options : SimulatorOptions) (c : Circuit) :
    Except String RunResult :=
  if options.StateVector then
    (s.GetStatevector c).map RunResult.statevector
  else
    (runShots s c).map RunResult.histogram

end QCM.Sim

namespace QCM.Sim

/-- The empty circuit, used as a concrete input in witnesses. -/
def circEmpty : Circuit := FromDAG { qubits := 0, clbits := 0, operations := [] }

/-- Options carrying no runner, used as a concrete input in witnesses. -/
def optsNone : SimulatorOptions :=
  { Shots := 0, Workers := 0, Runner := none, StateVector := false }

/-- Options asking for statevector mode, with no runner. -/
def optsSV : SimulatorOptions :=
  { Shots := 1, Workers := 1, Runner := none, StateVector := true }

/-- A simulator whose runner is nil. -/
def simNil : Simulator := NewSimulator 4 optsSV

/-- A runner that implements the statevector-getter capability but whose
`GetStatevector` itself fails. -/
def getterBoom : OneShotRunner :=
  { RunOnce := fun _ => Except.error "x",
    statevectorGetter := some fun _ => Except.error "boom" }

/-- A simulator built over `getterBoom`. -/
def simBoom : Simulator :=
  NewSimulator 4
    { Shots := 1, Workers := 1, Runner := some getterBoom, StateVector := false }

/-- A trivial shot path returning an empty histogram. -/
def runA : Simulator → Circuit → Except String (List (String × Int)) :=
  fun _ _ => Except.ok []

/-- A trivial shot path that fails. -/
def runB : Simulator → Circuit → Except String (List (String × Int)) :=
  fun _ _ => Except.error "x"

end QCM.Sim

namespace QCM.Alias

open QCM

/-- Heap of circuit-owned int arrays: Go slice backing arrays made
explicit for the aliasing claim. -/
abbrev Heap := List (List Int)

/-- Go struct `circuit.Operation` with the `Qubits` slice header modelled as a
reference into the heap. -/
structure OperationH where
  G : Gate
  qubitsRef : Nat
  Cbit : Int
  TimeStep : Int
  Line : Int
deriving DecidableEq

/-- Go struct `circuit.circuit` over heap-referenced operations. -/
structure CircuitH where
  qubits : Int
  clbits : Int
  ops : List OperationH
  depth : Int
  maxStep : Int
deriving DecidableEq

/-- The sort order on heap-referenced operations, as in `opSortLE`. -/
def opSortLEH (a b : OperationH) : Prop :=
  a.TimeStep < b.TimeStep ∨ (a.TimeStep = b.TimeStep ∧ a.Line ≤ b.Line)

instance : DecidableRel opSortLEH := fun a b => by
  unfold opSortLEH; infer_instance

/-- The `sort.SliceStable` call over heap-referenced operations. -/
def sortOpsH (ops : List OperationH) : List OperationH :=
  List.insertionSort opSortLEH ops

/-- The `FromDAG` loop with the slice copy `append([]int(nil), n.Qubits...)`
made explicit: each node's qubit list is copied into a fresh heap cell and
the emitted operation stores only the reference. -/
def layoutLoopH : List DAGNode → List (NodeID × Int) → Int → Heap →
    List OperationH × List (NodeID × Int) × Int × Heap
  | [], m, ms, h => ([], m, ms, h)
  | n :: rest, m, ms, h =>
    let step := maxParentStep m n.parents + 1
    let op : OperationH :=
      { G := n.G, qubitsRef := h.length, Cbit := n.Cbit, TimeStep := step,
        Line := minQubit n.Qubits }
    let tail := layoutLoopH rest ((n.id, step) :: m)
      (if step > ms then step else ms) (h ++ [n.Qubits])
    (op :: tail.1, tail.2)

/-- Go function `circuit.FromDAG` in the heap model; returns the circuit and the heap
of backing arrays it allocated. -/
def FromDAGH (dr : DAGReader) : CircuitH × Heap :=
  if dr.operations.isEmpty then
    ({ qubits := dr.qubits, clbits := dr.clbits, ops := [], depth := 0,
       maxStep := -1 }, [])
  else
    let r := layoutLoopH dr.operations [] (-1) []
    ({ qubits := dr.qubits, clbits := dr.clbits, ops := sortOpsH r.1,
       depth := r.2.2.1 + 1, maxStep := r.2.2.1 }, r.2.2.2)

/-- Accessor `(c *circuit).Operations()` in the heap model: the outer slice is
copied, so the result is a fresh list whose elements carry the same
backing-array references. -/
def CircuitH.OperationsH (c : CircuitH) : List OperationH := c.ops

/-- An in-place write `qubits[i] = v` through a slice header `ref`. -/
def heapWrite (h : Heap) (ref i : Nat) (v : Int) : Heap :=
  h.set ref ((h.getD ref []).set i v)

/-- A read `qubits[i]` through a slice header `ref`. -/
def heapRead (h : Heap) (ref i : Nat) : Option Int :=
  h[ref]?.bind fun arr => arr[i]?

/-- The CNOT operation record of the witness circuit in the heap model. -/
def opBH : OperationH :=
  { G := gateCX, qubitsRef := 1, Cbit := -1, TimeStep := 1, Line := 0 }

end QCM.Alias

namespace QCM.Sim

/-- C5: `NewSimulator` keeps a positive `options.Shots` and defaults the
shot count to 1024 when `options.Shots ≤ 0`. -/
theorem newSimulator_shots (numCPU : Int) (o : SimulatorOptions) :
    (0 < o.Shots → (NewSimulator numCPU o).Shots = o.Shots) ∧
    (o.Shots ≤ 0 → (NewSimulator numCPU o).Shots = 1024) := by
  constructor <;> intro h <;> simp only [NewSimulator] <;> split_ifs <;> omega

/-- Witness for C5 at concrete options. -/
theorem newSimulator_shots_witness :
    (NewSimulator 4 optsNone).Shots = 1024 :=
  (newSimulator_shots 4 optsNone).2 (by decide)

/-- C6: `NewSimulator` sets `Workers` to `min options.Workers Shots` for a
positive `options.Workers`, to `min numCPU Shots` otherwise, and `Workers`
never exceeds `Shots`. -/
theorem newSimulator_workers (numCPU : Int) (o : SimulatorOptions) :
    (0 < o.Workers →
      (NewSimulator numCPU o).Workers =
        min o.Workers (NewSimulator numCPU o).Shots) ∧
    (o.Workers ≤ 0 →
      (NewSimulator numCPU o).Workers =
        min numCPU (NewSimulator numCPU o).Shots) ∧
    (NewSimulator numCPU o).Workers ≤ (NewSimulator numCPU o).Shots := by
  refine ⟨fun h => ?_, fun h => ?_, ?_⟩ <;>
    simp only [NewSimulator, min_def] <;> split_ifs <;> omega

/-- Witness for C6 at concrete options. -/
theorem newSimulator_workers_witness :
    (NewSimulator 4 optsNone).Workers = min 4 (NewSimulator 4 optsNone).Shots :=
  (newSimulator_workers 4 optsNone).2.1 (by decide)

/-- C3: with the `state_vector` option set, execution routes through
`GetStatevector` and is independent of the shot path (`Run` is unused). -/
theorem stateVector_uses_getStatevector
    (run1 run2 : Simulator → Circuit → Except String (List (String × Int)))
    (s : Simulator) (o : SimulatorOptions) (c : Circuit)
    (h : o.StateVector = true) :
    dispatch run1 s o c = (s.GetStatevector c).map RunResult.statevector ∧
    dispatch run1 s o c = dispatch run2 s o c := by
  simp [dispatch, h]

/-- Witness for C3 at concrete inputs. -/
theorem stateVector_uses_getStatevector_witness :
    dispatch runA simNil optsSV circEmpty =
      (simNil.GetStatevector circEmpty).map RunResult.statevector ∧
    dispatch runA simNil optsSV circEmpty = dispatch runB simNil optsSV circEmpty :=
  stateVector_uses_getStatevector runA runB simNil optsSV circEmpty rfl

/-- C4 counterexample: a runner may implement the statevector-getter
capability and still make `GetStatevector` return an error, so "error iff
the capability is missing" fails. -/
theorem getStatevector_error_despite_capability :
    simBoom.implementsStatevector = true ∧
    simBoom.GetStatevector circEmpty = Except.error "boom" :=
  ⟨rfl, rfl⟩

/-- C4 amended: `GetStatevector` returns the unsupported-runner error when
the capability is missing, and otherwise returns exactly the runner's
`GetStatevector` result (which may itself be an error). -/
theorem getStatevector_amended (s : Simulator) (c : Circuit) :
    (s.implementsStatevector = false →
      s.GetStatevector c =
        Except.error "runner does not support getting the state vector") ∧
    (∀ r g, s.runner = some r → r.statevectorGetter = some g →
      s.GetStatevector c = g c) := by
  constructor
  · intro h
    rcases hs : s.runner with _ | r
    · simp [Simulator.GetStatevector, hs]
    · rcases hg : r.statevectorGetter with _ | g
      · simp [Simulator.GetStatevector, hs, hg]
      · exfalso
        unfold Simulator.implementsStatevector at h
        rw [hs] at h
        simp [hg] at h
  · intro r g hr hg
    simp [Simulator.GetStatevector, hr, hg]

/-- Witness for the amended C4 at a nil-runner simulator. -/
theorem getStatevector_amended_witness :
    Simulator.GetStatevector simNil circEmpty =
      Except.error "runner does not support getting the state vector" :=
  (getStatevector_amended simNil circEmpty).1 rfl

/-- C9 counterexample: `NewSimulator` with no runner provided does not
fail; it returns an ordinary simulator value with a nil runner and
defaulted shots/workers. -/
theorem newSimulator_nil_runner_succeeds :
    (NewSimulator 4 optsNone).Shots = 1024 ∧
    (NewSimulator 4 optsNone).Workers = 4 ∧
    (NewSimulator 4 optsNone).runner = none :=
  ⟨rfl, rfl, rfl⟩

/-- C9 amended: construction with a nil runner succeeds (no validation),
but the resulting simulator is unusable for statevector extraction: its
runner is nil and `GetStatevector` always errors. -/
theorem newSimulator_nil_runner_unusable (numCPU : Int) (o : SimulatorOptions)
    (c : Circuit) (h : o.Runner = none) :
    (NewSimulator numCPU o).runner = none ∧
    Simulator.GetStatevector (NewSimulator numCPU o) c =
      Except.error "runner does not support getting the state vector" := by
  have hr : (NewSimulator numCPU o).runner = none := h
  exact ⟨hr, by unfold Simulator.GetStatevector; rw [hr]⟩

/-- Witness for the amended C9 at concrete options. -/
theorem newSimulator_nil_runner_unusable_witness :
    (NewSimulator 4 optsNone).runner = none ∧
    Simulator.GetStatevector (NewSimulator 4 optsNone) circEmpty =
      Except.error "runner does not support getting the state vector" :=
  newSimulator_nil_runner_unusable 4 optsNone circEmpty rfl

end QCM.Sim

namespace QCM

/-- C8: `FromDAG` on a DAG with no operations yields `MaxStep = -1`,
`Depth = 0`, no operations, and the DAG's qubit/classical-bit counts. -/
theorem fromDAG_empty (dr : DAGReader) (h : dr.operations = []) :
    (FromDAG dr).MaxStep = -1 ∧ (FromDAG dr).Depth = 0 ∧
    (FromDAG dr).Operations = [] ∧
    (FromDAG dr).Qubits = dr.qubits ∧ (FromDAG dr).Clbits = dr.clbits := by
  simp [FromDAG, h, Circuit.MaxStep, Circuit.Depth, Circuit.Operations,
    Circuit.Qubits, Circuit.Clbits]

/-- Witness for C8 at a concrete empty DAG. -/
theorem fromDAG_empty_witness :
    (FromDAG { qubits := 3, clbits := 2, operations := [] }).MaxStep = -1 ∧
    (FromDAG { qubits := 3, clbits := 2, operations := [] }).Depth = 0 ∧
    (FromDAG { qubits := 3, clbits := 2, operations := [] }).Operations = [] ∧
    (FromDAG { qubits := 3, clbits := 2, operations := [] }).Qubits = 3 ∧
    (FromDAG { qubits := 3, clbits := 2, operations := [] }).Clbits = 2 :=
  fromDAG_empty { qubits := 3, clbits := 2, operations := [] } rfl

/-- C2: the operation list of a circuit built by `FromDAG` is sorted by
`(TimeStep, Line)` lexicographically, and `Operations()` surfaces exactly
that list. -/
theorem operations_sorted (dr : DAGReader) :
    List.Sorted opSortLE ((FromDAG dr).Operations) ∧
    (FromDAG dr).Operations = (FromDAG dr).ops := by
  refine ⟨?_, rfl⟩
  unfold FromDAG Circuit.Operations
  split
  · simp
  · split
    exact List.sorted_insertionSort opSortLE _

end QCM

namespace QCM

/-- The head equation of `layoutLoop`, with the let bindings expanded. -/
theorem layoutLoop_cons (n : DAGNode) (rest : List DAGNode)
    (m : List (NodeID × Int)) (ms : Int) :
    layoutLoop (n :: rest) m ms =
      ({ G := n.G, Qubits := n.Qubits, Cbit := n.Cbit,
         TimeStep := maxParentStep m n.parents + 1,
         Line := minQubit n.Qubits } ::
           (layoutLoop rest ((n.id, maxParentStep m n.parents + 1) :: m)
             (if maxParentStep m n.parents + 1 > ms
              then maxParentStep m n.parents + 1 else ms)).1,
       (layoutLoop rest ((n.id, maxParentStep m n.parents + 1) :: m)
         (if maxParentStep m n.parents + 1 > ms
          then maxParentStep m n.parents + 1 else ms)).2) := rfl

/-- Go's `if pStep > acc then pStep else acc` is `max`. -/
theorem ite_gt_eq_max (a b : Int) : (if b > a then b else a) = max a b := by
  rw [max_def]; split_ifs <;> omega

/-- Keys present in the map have a recorded step. -/
theorem lookupStep_isSome_of_mem (m : List (NodeID × Int)) (k : NodeID)
    (h : k ∈ m.map Prod.fst) : ∃ v, lookupStep m k = some v := by
  induction m with
  | nil => simp at h
  | cons e rest ih =>
    obtain ⟨k1, v1⟩ := e
    by_cases he : k1 = k
    · exact ⟨v1, by simp [lookupStep, he]⟩
    · have : k ∈ rest.map Prod.fst := by
        simpa [he, Ne.symm he] using h
      obtain ⟨v, hv⟩ := ih this
      exact ⟨v, by simp [lookupStep, he, hv]⟩

/-- Steps of ids not processed by the loop are untouched. -/
theorem lookupStep_layoutLoop_stable (nodes : List DAGNode)
    (m : List (NodeID × Int)) (ms : Int) (k : NodeID)
    (hk : ∀ n ∈ nodes, n.id ≠ k) :
    lookupStep (layoutLoop nodes m ms).2.1 k = lookupStep m k := by
  induction nodes generalizing m ms with
  | nil => rfl
  | cons n rest ih =>
    rw [layoutLoop_cons]
    have h1 := ih ((n.id, maxParentStep m n.parents + 1) :: m)
      (if maxParentStep m n.parents + 1 > ms
       then maxParentStep m n.parents + 1 else ms)
      (fun x hx => hk x (List.mem_cons_of_mem _ hx))
    calc lookupStep (layoutLoop rest _ _).2.1 k
        = lookupStep ((n.id, maxParentStep m n.parents + 1) :: m) k := h1
      _ = lookupStep m k := by
          simp [lookupStep, hk n (List.mem_cons_self _ _)]

/-- The parent-max accumulation, rewritten as a fold of `max` over the
defaulted lookups. -/
theorem maxParentStep_fold (m : List (NodeID × Int)) (parents : List NodeID)
    (acc : Int) (hacc : -1 ≤ acc) :
    parents.foldl
      (fun acc pID =>
        match lookupStep m pID with
        | some pStep => if pStep > acc then pStep else acc
        | none => acc)
      acc =
    parents.foldl (fun acc p => max acc ((lookupStep m p).getD (-1))) acc := by
  induction parents generalizing acc with
  | nil => rfl
  | cons p ps ih =>
    rcases h : lookupStep m p with _ | v <;>
      simp only [List.foldl_cons, h, Option.getD_none, Option.getD_some]
    · rw [max_eq_left (by omega : (-1 : Int) ≤ acc)]
      exact ih acc hacc
    · rw [ite_gt_eq_max]
      exact ih (max acc v) (le_trans hacc (le_max_left _ _))

/-- Lemma: `maxParentStep` equals the -1-based maximum of the parents' recorded
steps (absent parents contributing -1). -/
theorem maxParentStep_eq (m : List (NodeID × Int)) (parents : List NodeID) :
    maxParentStep m parents =
      listMaxI (parents.map fun p => (lookupStep m p).getD (-1)) := by
  unfold maxParentStep listMaxI
  rw [List.foldl_map]
  exact maxParentStep_fold m parents (-1) le_rfl

/-- The seed of a `max` fold bounds the fold from below. -/
theorem le_foldl_max (l : List Int) (a : Int) : a ≤ l.foldl max a := by
  induction l generalizing a with
  | nil => exact le_rfl
  | cons x xs ih => exact le_trans (le_max_left a x) (ih (max a x))

/-- Every element of a list bounds its `max` fold from below. -/
theorem mem_le_foldl_max (l : List Int) (a x : Int) (hx : x ∈ l) :
    x ≤ l.foldl max a := by
  induction l generalizing a with
  | nil => cases hx
  | cons y ys ih =>
    rcases List.mem_cons.mp hx with h | h
    · subst h
      exact le_trans (le_max_right a x) (le_foldl_max ys _)
    · exact ih (max a y) h

/-- A `max` fold is invariant under permutation of the list. -/
theorem foldl_max_perm (l l' : List Int) (h : l.Perm l') (a : Int) :
    l.foldl max a = l'.foldl max a := by
  induction h generalizing a with
  | nil => rfl
  | cons x p ih => simp only [List.foldl_cons]; exact ih _
  | swap x y l =>
    simp only [List.foldl_cons]
    rw [max_assoc, max_comm y x, max_assoc]
  | trans p q ih1 ih2 => exact (ih1 a).trans (ih2 a)

end QCM

namespace QCM

/-- Ops component of the head equation of `layoutLoop`. -/
theorem layoutLoop_fst_cons (n : DAGNode) (rest : List DAGNode)
    (m : List (NodeID × Int)) (ms : Int) :
    (layoutLoop (n :: rest) m ms).1 =
      { G := n.G, Qubits := n.Qubits, Cbit := n.Cbit,
        TimeStep := maxParentStep m n.parents + 1,
        Line := minQubit n.Qubits } ::
        (layoutLoop rest ((n.id, maxParentStep m n.parents + 1) :: m)
          (if maxParentStep m n.parents + 1 > ms
           then maxParentStep m n.parents + 1 else ms)).1 := rfl

/-- Map component of the head equation of `layoutLoop`. -/
theorem layoutLoop_map_cons (n : DAGNode) (rest : List DAGNode)
    (m : List (NodeID × Int)) (ms : Int) :
    (layoutLoop (n :: rest) m ms).2.1 =
      (layoutLoop rest ((n.id, maxParentStep m n.parents + 1) :: m)
        (if maxParentStep m n.parents + 1 > ms
         then maxParentStep m n.parents + 1 else ms)).2.1 := rfl

/-- Max-step component of the head equation of `layoutLoop`. -/
theorem layoutLoop_ms_cons (n : DAGNode) (rest : List DAGNode)
    (m : List (NodeID × Int)) (ms : Int) :
    (layoutLoop (n :: rest) m ms).2.2 =
      (layoutLoop rest ((n.id, maxParentStep m n.parents + 1) :: m)
        (if maxParentStep m n.parents + 1 > ms
         then maxParentStep m n.parents + 1 else ms)).2.2 := rfl

/-- Core invariant of the `FromDAG` loop: with pairwise-distinct node ids
that are fresh for the incoming map, and the node list topologically
ordered relative to the map's keys, every node's final recorded step is
`1 + max(parents' final steps)`, its emitted operation carries exactly
that step, and its step strictly exceeds each parent's. -/
theorem layoutLoop_main (nodes : List DAGNode) (m : List (NodeID × Int))
    (ms : Int)
    (hfresh : ∀ n ∈ nodes, n.id ∉ m.map Prod.fst)
    (hnd : (nodes.map DAGNode.id).Nodup)
    (ht : topoRel (m.map Prod.fst) nodes) :
    ∀ (i : Nat) (n : DAGNode), nodes[i]? = some n →
      ∃ s, lookupStep (layoutLoop nodes m ms).2.1 n.id = some s ∧
        (layoutLoop nodes m ms).1[i]? =
          some { G := n.G, Qubits := n.Qubits, Cbit := n.Cbit, TimeStep := s,
                 Line := minQubit n.Qubits } ∧
        s = 1 + listMaxI (n.parents.map fun p =>
              (lookupStep (layoutLoop nodes m ms).2.1 p).getD (-1)) ∧
        ∀ p ∈ n.parents, ∃ sp,
          lookupStep (layoutLoop nodes m ms).2.1 p = some sp ∧ sp < s := by
  induction nodes generalizing m ms with
  | nil => intro i n h; simp at h
  | cons n0 rest ih =>
    intro i n hget
    obtain ⟨hpar, htrest⟩ := ht
    have hfresh0 : n0.id ∉ m.map Prod.fst := hfresh n0 (List.mem_cons_self _ _)
    rw [List.map_cons, List.nodup_cons] at hnd
    obtain ⟨hid0, hndrest⟩ := hnd
    have hfresh1 : ∀ x ∈ rest,
        x.id ∉ ((n0.id, maxParentStep m n0.parents + 1) :: m).map Prod.fst := by
      intro x hx h
      rw [List.map_cons] at h
      rcases List.mem_cons.mp h with he | hm
      · have he2 : x.id = n0.id := he
        exact hid0 (he2 ▸ List.mem_map_of_mem DAGNode.id hx)
      · exact hfresh x (List.mem_cons_of_mem _ hx) hm
    have ht1 : topoRel
        (((n0.id, maxParentStep m n0.parents + 1) :: m).map Prod.fst) rest :=
      htrest
    rw [layoutLoop_map_cons, layoutLoop_fst_cons]
    have hparfix : ∀ p ∈ n0.parents,
        lookupStep (layoutLoop rest
          ((n0.id, maxParentStep m n0.parents + 1) :: m)
          (if maxParentStep m n0.parents + 1 > ms
           then maxParentStep m n0.parents + 1 else ms)).2.1 p =
        lookupStep m p := by
      intro p hp
      have hpm : p ∈ m.map Prod.fst := hpar p hp
      have h1 := lookupStep_layoutLoop_stable rest
        ((n0.id, maxParentStep m n0.parents + 1) :: m)
        (if maxParentStep m n0.parents + 1 > ms
         then maxParentStep m n0.parents + 1 else ms) p
        (fun x hx hxe => hfresh x (List.mem_cons_of_mem _ hx) (hxe ▸ hpm))
      rw [h1]
      have hne : n0.id ≠ p := fun he => hfresh0 (he ▸ hpm)
      simp [lookupStep, hne]
    cases i with
    | zero =>
      rw [List.getElem?_cons_zero] at hget
      obtain rfl : n0 = n := by simpa using hget
      refine ⟨maxParentStep m n0.parents + 1, ?_, ?_, ?_, ?_⟩
      · have hstab := lookupStep_layoutLoop_stable rest
          ((n0.id, maxParentStep m n0.parents + 1) :: m)
          (if maxParentStep m n0.parents + 1 > ms
           then maxParentStep m n0.parents + 1 else ms) n0.id
          (fun x hx hxe =>
            hid0 (by rw [← hxe]; exact List.mem_map_of_mem DAGNode.id hx))
        rw [hstab]
        simp [lookupStep]
      · rw [List.getElem?_cons_zero]
      · have hmapeq : n0.parents.map
            (fun p => (lookupStep (layoutLoop rest
              ((n0.id, maxParentStep m n0.parents + 1) :: m)
              (if maxParentStep m n0.parents + 1 > ms
               then maxParentStep m n0.parents + 1 else ms)).2.1 p).getD (-1)) =
            n0.parents.map (fun p => (lookupStep m p).getD (-1)) :=
          List.map_congr_left (fun p hp => by rw [hparfix p hp])
        rw [hmapeq, ← maxParentStep_eq]
        omega
      · intro p hp
        have hpm : p ∈ m.map Prod.fst := hpar p hp
        obtain ⟨sp, hsp⟩ := lookupStep_isSome_of_mem m p hpm
        refine ⟨sp, by rw [hparfix p hp, hsp], ?_⟩
        have hle : sp ≤ maxParentStep m n0.parents := by
          rw [maxParentStep_eq]
          have hmem : sp ∈ n0.parents.map (fun q => (lookupStep m q).getD (-1)) := by
            have h0 := List.mem_map_of_mem (fun q => (lookupStep m q).getD (-1)) hp
            simpa [hsp] using h0
          unfold listMaxI
          exact mem_le_foldl_max _ _ _ hmem
        omega
    | succ j =>
      rw [List.getElem?_cons_succ] at hget
      obtain ⟨s, h1, h2, h3, h4⟩ := ih
        ((n0.id, maxParentStep m n0.parents + 1) :: m)
        (if maxParentStep m n0.parents + 1 > ms
         then maxParentStep m n0.parents + 1 else ms)
        hfresh1 hndrest ht1 j n hget
      refine ⟨s, h1, ?_, h3, h4⟩
      rw [List.getElem?_cons_succ]
      exact h2

end QCM

namespace QCM

/-- C1: for every DAG whose node list is topologically ordered (every
parent of a node appears earlier in the list) and whose node ids are
pairwise distinct, `FromDAG` assigns each node
`time_step = 1 + max(time_step of parents)` (so parentless nodes get 0),
emits an operation carrying exactly that step, and every node's
`time_step` strictly exceeds each of its parents' steps. -/
theorem fromDAG_timeStep (dr : DAGReader)
    (hnd : (dr.operations.map DAGNode.id).Nodup)
    (ht : topoRel [] dr.operations) :
    ∀ (i : Nat) (n : DAGNode), dr.operations[i]? = some n →
      ∃ s, lookupStep (stepMap dr.operations) n.id = some s ∧
        mkOp n s ∈ (FromDAG dr).Operations ∧
        s = 1 + listMaxI (n.parents.map fun p =>
              (lookupStep (stepMap dr.operations) p).getD (-1)) ∧
        (n.parents = [] → s = 0) ∧
        ∀ p ∈ n.parents, ∃ sp,
          lookupStep (stepMap dr.operations) p = some sp ∧ sp < s := by
  intro i n hget
  obtain ⟨s, h1, h2, h3, h4⟩ := layoutLoop_main dr.operations [] (-1)
    (by simp) hnd ht i n hget
  refine ⟨s, h1, ?_, h3, ?_, h4⟩
  · have hne : dr.operations ≠ [] := by
      intro h0; rw [h0] at hget; simp at hget
    have h2' : (layoutLoop dr.operations [] (-1)).1[i]? = some (mkOp n s) := h2
    have hmem : mkOp n s ∈ (layoutLoop dr.operations [] (-1)).1 := by
      obtain ⟨hlt, he⟩ := List.getElem?_eq_some.mp h2'
      exact he ▸ List.getElem_mem hlt
    unfold FromDAG Circuit.Operations
    rw [if_neg (by simpa [List.isEmpty_iff] using hne)]
    rcases hr : layoutLoop dr.operations [] (-1) with ⟨a, b, c⟩
    rw [hr] at hmem
    show mkOp n s ∈ sortOps a
    exact (List.mem_insertionSort opSortLE).mpr hmem
  · intro hp
    rw [h3, hp]
    simp [listMaxI]

/-- Witness for C1 at the child node of the concrete DAG. -/
theorem fromDAG_timeStep_witness :
    ∃ s, lookupStep (stepMap drW.operations) nodeB.id = some s ∧
      mkOp nodeB s ∈ (FromDAG drW).Operations ∧
      s = 1 + listMaxI (nodeB.parents.map fun p =>
            (lookupStep (stepMap drW.operations) p).getD (-1)) ∧
      (nodeB.parents = [] → s = 0) ∧
      ∀ p ∈ nodeB.parents, ∃ sp,
        lookupStep (stepMap drW.operations) p = some sp ∧ sp < s :=
  fromDAG_timeStep drW (by decide) (by decide) 1 nodeB (by decide)

/-- The max-step component of the loop is the fold of `max` over the
emitted time steps. -/
theorem layoutLoop_ms_fold (nodes : List DAGNode) (m : List (NodeID × Int))
    (ms : Int) :
    (layoutLoop nodes m ms).2.2 =
      ((layoutLoop nodes m ms).1.map Operation.TimeStep).foldl max ms := by
  induction nodes generalizing m ms with
  | nil => rfl
  | cons n rest ih =>
    rw [layoutLoop_ms_cons, ih, layoutLoop_fst_cons, List.map_cons,
      List.foldl_cons, ite_gt_eq_max]

/-- C7: `Depth` is `MaxStep + 1`, and `MaxStep` is the maximum `TimeStep`
over the surfaced operations with base -1. -/
theorem depth_maxStep (dr : DAGReader) :
    (FromDAG dr).Depth = (FromDAG dr).MaxStep + 1 ∧
    (FromDAG dr).MaxStep =
      listMaxI (((FromDAG dr).Operations).map Operation.TimeStep) := by
  unfold FromDAG Circuit.Depth Circuit.MaxStep Circuit.Operations
  split
  · exact ⟨by simp, by simp [listMaxI]⟩
  · split
    rename_i a b c heq
    refine ⟨rfl, ?_⟩
    have hms := layoutLoop_ms_fold dr.operations [] (-1)
    rw [heq] at hms
    have hms2 : c = (a.map Operation.TimeStep).foldl max (-1) := hms
    have hperm : ((sortOps a).map Operation.TimeStep).Perm
        (a.map Operation.TimeStep) :=
      List.Perm.map Operation.TimeStep (List.perm_insertionSort opSortLE a)
    unfold listMaxI
    rw [hms2]
    exact (foldl_max_perm _ _ hperm (-1)).symm

end QCM

namespace QCM.Alias

/-- Read-after-write through the same backing array reference. -/
theorem heapRead_heapWrite (h : Heap) (ref i : Nat) (v : Int)
    (href : ref < h.length) (hi : i < (h.getD ref []).length) :
    heapRead (heapWrite h ref i v) ref i = some v := by
  unfold heapRead heapWrite
  rw [List.getElem?_set_self href, Option.some_bind]
  exact List.getElem?_set_self hi

end QCM.Alias

namespace QCM.Alias

/-- C10: two calls to `Operations()` surface equal operation records
(the outer slice is copied, the records keep their backing-array
references), so an in-place write to an element of one call's `Qubits`
array is read back through the corresponding record of the other call. -/
theorem operations_share_qubits (dr : DAGReader) (k i : Nat) (v : Int)
    (op1 op2 : OperationH)
    (h1 : ((FromDAGH dr).1.OperationsH)[k]? = some op1)
    (h2 : ((FromDAGH dr).1.OperationsH)[k]? = some op2)
    (href : op1.qubitsRef < (FromDAGH dr).2.length)
    (hi : i < ((FromDAGH dr).2.getD op1.qubitsRef []).length) :
    op2.qubitsRef = op1.qubitsRef ∧
    heapRead (heapWrite (FromDAGH dr).2 op1.qubitsRef i v) op2.qubitsRef i
      = some v := by
  have heq : op2 = op1 := by
    rw [h1] at h2
    exact (Option.some.inj h2).symm
  subst heq
  exact ⟨rfl, heapRead_heapWrite _ _ _ _ href hi⟩

/-- Witness for C10 on the concrete two-node DAG. -/
theorem operations_share_qubits_witness :
    opBH.qubitsRef = opBH.qubitsRef ∧
    heapRead (heapWrite (FromDAGH drW).2 opBH.qubitsRef 0 7) opBH.qubitsRef 0
      = some 7 :=
  operations_share_qubits drW 1 0 7 opBH opBH (by decide) (by decide)
    (by decide) (by decide)

end QCM.Alias
